import Mathlib

set_option maxHeartbeats 1000000

/-!
Shallow embedding of the p3388 RFI generator (gereactor.py, rfireactor.py,
rfigenerator.py, iffttimechunk.py), with theorems checking the
natural-language specification against the code.

Random draws are modelled as explicit rational inputs (the program draws
IEEE-754 doubles, all of which are rationals): `r` stands for a uniform
draw in [0,1), `bwAbs` for `abs(randn())`, `pwr` for `randn()`.
Real-valued signal arithmetic (powers, square roots, Gaussians, dB
conversion) is modelled over `ℝ`.
-/

/-- One set of random draws consumed by a single reactor step:
`r` is the uniform draw of `GEReactor.step`, `bwAbs` the value of
`np.abs(np.random.randn())` used for the bandwidth, `pwr` the value of
`np.random.randn()` used for the power level. -/
structure Draws where
  r : ℚ
  bwAbs : ℚ
  pwr : ℚ

/-- State of the two-state Gilbert-Elliott chain of gereactor.py:
stay probabilities `p00`, `p11` (the only entries of the 2x2 matrix the
code reads) and the current state (`false` = state 0 = OFF,
`true` = state 1 = ON). -/
structure GEReactor where
  p00 : ℚ
  p11 : ℚ
  state : Bool

/-- Transition rule of `GEReactor.step` in gereactor.py: in state 0,
move to state 1 iff the draw exceeds `p00`; in state 1, move to state 0
iff the draw exceeds `p11`. -/
def ge_transition (p00 p11 : ℚ) (s : Bool) (r : ℚ) : Bool :=
  if s = false then (if p00 < r then true else false)
  else (if p11 < r then false else true)

/-- `GEReactor.step` from gereactor.py, with the uniform draw made explicit. -/
def GEReactor.step (g : GEReactor) (r : ℚ) : GEReactor :=
  { g with state := ge_transition g.p00 g.p11 g.state r }

/-- Repeated stepping of the chain along a list of uniform draws. -/
def GEReactor.run (g : GEReactor) (rs : List ℚ) : GEReactor :=
  rs.foldl GEReactor.step g

/-- State of `RFIReactor` in rfireactor.py: the inherited Gilbert-Elliott
fields, the configuration fields read from `reactor_props`, the bin count
`nbins`, and the interference magnitude vector `J` (modelled as a total
function on integer bin indices; the numpy array holds indices
`0 .. nbins-1`). -/
structure RFIReactor where
  p00 : ℚ
  p11 : ℚ
  state : Bool
  centerbin : ℤ
  bw_type : String
  bw_mean : ℚ
  bw_std : ℚ
  pwr_type : String
  pwr_mean : ℚ
  pwr_std : ℚ
  shaping_enabled : Bool
  shaping_std : ℚ
  nbins : ℕ
  J : ℤ → ℝ

/-- The inherited `super().step()` call: the Gilbert-Elliott transition
applied to the reactor's own state field. -/
def RFIReactor.ge_step (R : RFIReactor) (r : ℚ) : RFIReactor :=
  { R with state := ge_transition R.p00 R.p11 R.state r }

/-- The width `L` sampled in `RFIReactor.step` for a "normal" bandwidth
distribution: `L = 1` when `mean <= 1` and `std == 0`, otherwise
`L = 2*ceil((mean + std*abs(randn()))/2) + 1`. -/
def sampleL (u s absd : ℚ) : ℤ :=
  if u ≤ 1 ∧ s = 0 then 1 else 2 * ⌈(u + s * absd) / 2⌉ + 1

/-- The integer interval `[lo, hi]` as a list, the value of
`np.arange(lo, hi + 1)` on integer-valued bounds. -/
def intRange (lo hi : ℤ) : List ℤ :=
  (List.range (hi + 1 - lo).toNat).map (fun k => lo + (k : ℤ))

/-- `RFIReactor.calculate_bin_range` from rfireactor.py:
`Ilow = max(startbin, 1)`, `Ihigh = min(endbin, nbins)`,
result `np.arange(Ilow, Ihigh + 1)`. -/
def RFIReactor.calculate_bin_range (R : RFIReactor) (startbin endbin : ℤ) : List ℤ :=
  intRange (max startbin 1) (min endbin (R.nbins : ℤ))

/-- The occupied-bin index list computed in `RFIReactor.step` when the
state is ON, for each bandwidth distribution type; unknown types raise
`ValueError`. -/
def occupiedBins (R : RFIReactor) (absd : ℚ) : Except String (List ℤ) :=
  if R.bw_type = "normal" then
    Except.ok (R.calculate_bin_range
      (R.centerbin - (sampleL R.bw_mean R.bw_std absd - 1) / 2)
      (R.centerbin + (sampleL R.bw_mean R.bw_std absd - 1) / 2))
  else if R.bw_type = "flat" then
    Except.ok ((List.range R.nbins).map Int.ofNat)
  else
    Except.error ("Unknown bw distribution type " ++ R.bw_type)

/-- The amplitude computed in `RFIReactor.step` for a "normal" power
distribution: `p = mean + std*randn()`, `plin = 10**(p/10)`,
`a = sqrt(plin)`. -/
noncomputable def ampOf (u s d : ℚ) : ℝ :=
  Real.sqrt ((10 : ℝ) ^ (((u + s * d : ℚ) : ℝ) / 10))

/-- The unnormalized Gaussian shaping weight of `RFIReactor.step`:
`np.exp(-0.5 * ((i - centerbin) / std)**2)` at bin `i`. -/
noncomputable def gaussW (c : ℤ) (σ : ℚ) (i : ℤ) : ℝ :=
  Real.exp (-(1 / 2) * (((i - c : ℤ) : ℝ) / (σ : ℝ)) ^ 2)

/-- Maximum of a list of reals, the value of `np.max` on a nonempty list
(`0` is returned for the empty list, where numpy raises). -/
noncomputable def listMax : List ℝ → ℝ
  | [] => 0
  | [x] => x
  | x :: y :: t => max x (listMax (y :: t))

/-- The per-bin envelope value assigned by `RFIReactor.step` at an
occupied bin `i`: the amplitude `a`, multiplied when shaping is enabled
by the Gaussian weight at `i` normalized by the maximum weight over the
occupied span `I`. -/
noncomputable def envVal (R : RFIReactor) (dpwr : ℚ) (I : List ℤ) (i : ℤ) : ℝ :=
  let a := ampOf R.pwr_mean R.pwr_std dpwr
  if R.shaping_enabled then
    a * (gaussW R.centerbin R.shaping_std i /
      listMax (I.map (gaussW R.centerbin R.shaping_std)))
  else a

/-- `RFIReactor.step` from rfireactor.py: advance the Gilbert-Elliott
chain; if the new state is ON, compute the occupied bins and write the
(possibly shaped) amplitude into `J` at those indices, raising
`ValueError` for unknown distribution types. -/
noncomputable def RFIReactor.step (R : RFIReactor) (d : Draws) : Except String RFIReactor :=
  if (R.ge_step d.r).state = true then
    Except.bind (occupiedBins (R.ge_step d.r) d.bwAbs) (fun I =>
      if (R.ge_step d.r).pwr_type = "normal" then
        Except.ok { R.ge_step d.r with
          J := fun i => if i ∈ I then envVal (R.ge_step d.r) d.pwr I i
            else (R.ge_step d.r).J i }
      else Except.error ("Unknown pwr distribution type " ++ (R.ge_step d.r).pwr_type))
  else Except.ok (R.ge_step d.r)

/-- The contribution vector `J` as the list of its values on the bin
indices `0 .. nbins-1` (the numpy array held in `self.J`). -/
def JVec (R : RFIReactor) : List ℝ :=
  (List.range R.nbins).map (fun i : ℕ => R.J (Int.ofNat i))

/-- `RFIReactor.add` from rfireactor.py: step, add `J` elementwise into
the given vector, reset `J` to zeros, return the summed vector. -/
noncomputable def RFIReactor.add (R : RFIReactor) (x : List ℝ) (d : Draws) :
    Except String (RFIReactor × List ℝ) :=
  Except.map (fun R1 => ({ R1 with J := fun _ => 0 },
      List.zipWith (· + ·) x (JVec R1)))
    (R.step d)

/-- The inner loop of `RFIGenerator.make_spectrogram`: fold `add` over
the reactor list in order, threading the frame vector and the updated
reactor states; `ds` supplies the draws consumed by each reactor. -/
noncomputable def addAll (ds : ℕ → Draws) :
    List RFIReactor → ℕ → List ℝ → Except String (List RFIReactor × List ℝ)
  | [], _, x => Except.ok ([], x)
  | R :: rs, k, x =>
    Except.bind (R.add x (ds k)) (fun p =>
      Except.bind (addAll ds rs (k + 1) p.2) (fun q =>
        Except.ok (p.1 :: q.1, q.2)))

/-- The noise-floor linear amplitude of `RFIGenerator.make_spectrogram`:
`nfv = 10**(NF/20)`. -/
noncomputable def nfv (NF : ℚ) : ℝ := (10 : ℝ) ^ (((NF / 20 : ℚ)) : ℝ)

/-- The dB conversion applied to each frame: `20*np.log10(x)`. -/
noncomputable def toDB (x : ℝ) : ℝ := 20 * Real.logb 10 x

/-- The `while t < dur` loop of `RFIGenerator.make_spectrogram`,
accumulating the emitted rows; `t` advances by `W` per frame, `k` counts
frames for the draw oracle, and `fuel` bounds the number of iterations
(the loop itself has none; theorems assume enough fuel). -/
noncomputable def make_frames (oracle : ℕ → ℕ → Draws) (L : ℕ) (nf : ℝ) (W dur : ℚ) :
    List RFIReactor → ℚ → ℕ → ℕ → Except String (List (List ℝ))
  | _, _, _, 0 => Except.ok []
  | rs, t, k, fuel + 1 =>
    if t < dur then
      Except.bind (addAll (oracle k) rs 0 (List.replicate L nf)) (fun p =>
        Except.bind (make_frames oracle L nf W dur p.1 (t + W) (k + 1) fuel) (fun frames =>
          Except.ok (p.2.map toDB :: frames)))
    else Except.ok []

/-- `RFIGenerator.make_spectrogram`: reject an even bin count with
`ValueError`, otherwise run the frame loop from `t = 0` with the
noise-floor amplitude broadcast as the initial row of every frame. -/
noncomputable def RFIGenerator.make_spectrogram (oracle : ℕ → ℕ → Draws) (L : ℕ)
    (NF W dur : ℚ) (rs : List RFIReactor) (fuel : ℕ) : Except String (List (List ℝ)) :=
  if L % 2 = 0 then Except.error "Number of frequency bins must be odd"
  else make_frames oracle L (nfv NF) W dur rs 0 0 fuel

/-- The reactor states at entry of frame `k + i`, starting from states
`rs` at frame `k`: each frame applies `addAll` to the noise-floor
broadcast and keeps the updated states. -/
noncomputable def statesFrom (oracle : ℕ → ℕ → Draws) (L : ℕ) (nf : ℝ) :
    ℕ → List RFIReactor → ℕ → Except String (List RFIReactor)
  | _, rs, 0 => Except.ok rs
  | k, rs, i + 1 =>
    Except.bind (addAll (oracle k) rs 0 (List.replicate L nf)) (fun p =>
      statesFrom oracle L nf (k + 1) p.1 i)

/-- The frame emitted at index `k + i` (states `rs` at frame `k`): the
dB conversion of the fold of every reactor's `add` over the noise-floor
broadcast, at the reactor states evolved through the previous frames. -/
noncomputable def frameFrom (oracle : ℕ → ℕ → Draws) (L : ℕ) (nf : ℝ)
    (k : ℕ) (rs : List RFIReactor) (i : ℕ) : Except String (List ℝ) :=
  Except.bind (statesFrom oracle L nf k rs i) (fun rsi =>
    Except.map (fun p => p.2.map toDB)
      (addAll (oracle (k + i)) rsi 0 (List.replicate L nf)))

/-- The sample-rate setup of `IFFTTimeChunk.__init__` in
iffttimechunk.py: `self.fs = StartingSampleRate_Hz; if self.fs:
self.fs = self.N / self.tau` (a nonzero float is truthy). -/
def IFFTTimeChunk.fs_init (fs0 N tau : ℚ) : ℚ :=
  if fs0 ≠ 0 then N / tau else fs0

/-- Modelled from the spec: the sample-rate rule as the specification
states it — "StartingSampleRate_Hz (zero => derive as N/duration)",
i.e. derive `N/tau` exactly when the configured rate is zero, keep the
configured nonzero value otherwise. For comparison with
`IFFTTimeChunk.fs_init`. -/
def fs_per_spec (fs0 N tau : ℚ) : ℚ :=
  if fs0 = 0 then N / tau else fs0

/-- `self.dF = self.fs / self.N` from `IFFTTimeChunk.__init__`. -/
def IFFTTimeChunk.dF (fs N : ℚ) : ℚ := fs / N

/-- `self.dT = 1 / self.dF` from `IFFTTimeChunk.__init__`; `none` models
the `ZeroDivisionError` Python raises when `dF` is zero. -/
def IFFTTimeChunk.dT (dF : ℚ) : Option ℚ :=
  if dF = 0 then none else some (1 / dF)

/-- Python's builtin `round` on an exact rational: round half to even. -/
def pyRound (q : ℚ) : ℤ :=
  if q - ⌊q⌋ = 1 / 2 then (if 2 ∣ ⌊q⌋ then ⌊q⌋ else ⌊q⌋ + 1) else round q

/-- The "repeat" branch of `IFFTTimeChunk.rep` in iffttimechunk.py:
`m = floor(M)` (ValueError if `m < 1`), tile `X` `m` times, then append
the first `round((M - m) * N)` entries of the tiled array (`N` is the
configured transform size `self.N`). -/
def IFFTTimeChunk.rep (X : List ℝ) (M : ℚ) (N : ℕ) : Except String (List ℝ) :=
  if ⌊M⌋ < 1 then Except.error "Number of repetitions must be at least 1"
  else
    Except.ok ((List.replicate (⌊M⌋).toNat X).flatten ++
      ((List.replicate (⌊M⌋).toNat X).flatten).take (pyRound ((M - ⌊M⌋) * N)).toNat)

/-- The reordering step of `IFFTTimeChunk.ifft`:
`Im = ceil(len/2)`, output `[Y[Im-1]] ++ Y[Im:] ++ Y[:Im-1]`;
`none` models the IndexError on an empty input. -/
def IFFTTimeChunk.ifft_reorder (Y : List ℝ) : Option (List ℝ) :=
  if Y.length = 0 then none
  else
    let Im := (⌈(Y.length : ℚ) / 2⌉).toNat
    some ((Y.drop (Im - 1)).take 1 ++ Y.drop Im ++ Y.take (Im - 1))

/-- Concrete reactor for the C2 failing input: 5 bins, center bin 4,
"normal" bandwidth with mean 3 and std 0. -/
noncomputable def R2 : RFIReactor :=
  { p00 := 0, p11 := 1, state := false, centerbin := 4,
    bw_type := "normal", bw_mean := 3, bw_std := 0,
    pwr_type := "normal", pwr_mean := 0, pwr_std := 0,
    shaping_enabled := false, shaping_std := 1, nbins := 5, J := fun _ => 0 }

/-- Concrete list for the C3 example: X = [1..10]. -/
noncomputable def X10 : List ℝ := [1, 2, 3, 4, 5, 6, 7, 8, 9, 10]

/-- A fixed draw oracle (all draws zero) for concrete spectrogram runs. -/
def oraW : ℕ → ℕ → Draws := fun _ _ => ⟨0, 0, 0⟩

/-- Concrete reactor for the C6 failing input: 5 bins, center bin 0,
bandwidth {normal, mean 1, std 0}, power {normal, mean 0, std 0},
shaping disabled; p00 = 0 so the first step turns it ON. -/
noncomputable def R6 : RFIReactor :=
  { p00 := 0, p11 := 1, state := false, centerbin := 0,
    bw_type := "normal", bw_mean := 1, bw_std := 0,
    pwr_type := "normal", pwr_mean := 0, pwr_std := 0,
    shaping_enabled := false, shaping_std := 1, nbins := 5, J := fun _ => 0 }

/-- Draws for the C6 failing input: uniform draw 1/2 turns the reactor ON. -/
def d6 : Draws := ⟨1 / 2, 0, 0⟩

/-- Concrete reactor for the C8 witness: 5 bins, center bin 2, width 5
(span [1,2,3,4] after the code's clipping), shaping enabled with std 1. -/
noncomputable def R8 : RFIReactor :=
  { p00 := 0, p11 := 1, state := false, centerbin := 2,
    bw_type := "normal", bw_mean := 3, bw_std := 0,
    pwr_type := "normal", pwr_mean := 0, pwr_std := 0,
    shaping_enabled := true, shaping_std := 1, nbins := 5, J := fun _ => 0 }

/-- Draws for the C8 witness. -/
def d8 : Draws := ⟨1 / 2, 0, 0⟩

/-- Concrete reactor for the C10 witness: stays OFF (p00 = 1). -/
noncomputable def R10 : RFIReactor :=
  { p00 := 1, p11 := 1, state := false, centerbin := 0,
    bw_type := "normal", bw_mean := 1, bw_std := 0,
    pwr_type := "normal", pwr_mean := 0, pwr_std := 0,
    shaping_enabled := false, shaping_std := 1, nbins := 1, J := fun _ => 0 }

/-- Draws for the C10 witness. -/
def d10 : Draws := ⟨1 / 2, 0, 0⟩

/-- Helper: taking at most `|X|` elements from the tiling of `X` (at
least one copy) yields the corresponding prefix of `X` itself. -/
theorem take_flatten_replicate (X : List ℝ) (m k : ℕ) (hm : 1 ≤ m) (hk : k ≤ X.length) :
    ((List.replicate m X).flatten).take k = X.take k := by
  obtain ⟨m', rfl⟩ := Nat.exists_eq_add_of_le hm
  rw [Nat.add_comm, List.replicate_succ, List.flatten_cons, List.take_append_eq_append_take,
    Nat.sub_eq_zero_of_le hk, List.take_zero, List.append_nil]

/-- Helper: the appended fractional-part sample count never exceeds `N`. -/
theorem pyRound_fract_le (M : ℚ) (N : ℕ) : (pyRound ((M - ⌊M⌋) * N)).toNat ≤ N := by
  set q : ℚ := (M - ⌊M⌋) * N with hq
  have hfr1 : M - ⌊M⌋ < 1 := by
    have := Int.lt_floor_add_one M
    linarith
  rcases Nat.eq_zero_or_pos N with hN | hN
  · subst hN
    have hq0 : q = 0 := by rw [hq]; push_cast; ring
    rw [hq0]
    norm_num [pyRound]
  · have hqN : q < (N : ℚ) := by
      have hN' : (0 : ℚ) < N := by exact_mod_cast hN
      calc q = (M - ⌊M⌋) * N := hq
      _ < 1 * N := mul_lt_mul_of_pos_right hfr1 hN'
      _ = N := one_mul _
    have key : pyRound q ≤ (N : ℤ) := by
      unfold pyRound
      split
      · have hfl : ⌊q⌋ < (N : ℤ) := by
          rw [Int.floor_lt]
          push_cast
          exact hqN
        split <;> omega
      · rw [round_eq]
        have h2 : ⌊q + 1 / 2⌋ < (N : ℤ) + 1 := by
          rw [Int.floor_lt]
          push_cast
          linarith
        omega
    omega

/-- Claim C9: with stay probabilities p00 = p11 = 1, starting OFF, the
Gilbert-Elliott state machine is OFF after every finite number of steps,
for every sequence of uniform draws in [0,1). -/
theorem ge_absorbing_off (rs : List ℚ) (h : ∀ r ∈ rs, 0 ≤ r ∧ r < 1) :
    (GEReactor.run { p00 := 1, p11 := 1, state := false } rs).state = false := by
  induction rs with
  | nil => rfl
  | cons r t ih =>
    have hr := h r (List.mem_cons_self r t)
    have hstep : GEReactor.step { p00 := 1, p11 := 1, state := false } r =
        { p00 := 1, p11 := 1, state := false } := by
      simp [GEReactor.step, ge_transition, not_lt.mpr hr.2.le]
    show (GEReactor.run (GEReactor.step { p00 := 1, p11 := 1, state := false } r) t).state = false
    rw [hstep]
    exact ih (fun r' hr' => h r' (List.mem_cons_of_mem _ hr'))

/-- Witness for C9 at the concrete draw sequence [0, 1/2, 99/100]. -/
theorem ge_absorbing_off_witness :
    (∀ r ∈ [(0 : ℚ), 1 / 2, 99 / 100], 0 ≤ r ∧ r < 1) ∧
    (GEReactor.run { p00 := 1, p11 := 1, state := false } [(0 : ℚ), 1 / 2, 99 / 100]).state
      = false := by
  have hd : ∀ r ∈ [(0 : ℚ), 1 / 2, 99 / 100], 0 ≤ r ∧ r < 1 := by
    intro r hr
    fin_cases hr <;> norm_num
  exact ⟨hd, ge_absorbing_off _ hd⟩

/-- Claim C1 (code bug): `IFFTTimeChunk.__init__` tests `if self.fs:` —
so a configured rate of 0 is kept (making dF = 0 and dT = 1/dF a
ZeroDivisionError), and a configured nonzero rate of 100 is discarded in
favour of N/tau = 11; the spec-modelled rule does the opposite. -/
theorem fs_derivation_code_eval :
    IFFTTimeChunk.fs_init 0 11 1 = 0 ∧
    fs_per_spec 0 11 1 = 11 ∧
    IFFTTimeChunk.dT (IFFTTimeChunk.dF (IFFTTimeChunk.fs_init 0 11 1) 11) = none ∧
    IFFTTimeChunk.fs_init 100 11 1 = 11 ∧
    fs_per_spec 100 11 1 = 100 := by
  norm_num [IFFTTimeChunk.fs_init, fs_per_spec, IFFTTimeChunk.dF, IFFTTimeChunk.dT]

/-- Claim C2 (code bug): the sampled width L = 5 is odd as claimed, but
on 5 bins with center bin 4 the code's occupied span is
`max(2,1) .. min(6,5)` = [2,3,4,5]: it is clipped to [1, nbins] rather
than [0, nbins-1], and contains the index 5 = nbins, which is not a
valid index into the length-5 contribution vector (numpy IndexError). -/
theorem bin_range_code_eval :
    sampleL 3 0 0 = 5 ∧
    occupiedBins R2 0 = Except.ok [2, 3, 4, 5] ∧
    (5 : ℤ) ∈ [(2 : ℤ), 3, 4, 5] ∧
    ¬ ((5 : ℤ) < (R2.nbins : ℤ)) := by
  have hceil : ⌈(3 / 2 : ℚ)⌉ = 2 := by
    rw [Int.ceil_eq_iff] <;> norm_num
  have hL : sampleL 3 0 0 = 5 := by
    rw [sampleL, if_neg (by norm_num), show (3 + 0 * 0 : ℚ) / 2 = 3 / 2 by norm_num, hceil]
    norm_num
  refine ⟨hL, ?_, by decide, by decide⟩
  rw [occupiedBins, if_pos (show R2.bw_type = "normal" from rfl),
    show R2.bw_mean = 3 from rfl, show R2.bw_std = 0 from rfl, hL,
    show R2.centerbin = 4 from rfl]
  simp only [RFIReactor.calculate_bin_range, show R2.nbins = 5 from rfl, Except.ok.injEq]
  decide

/-- Helper: the general shape of the "repeat" expansion — tile, then
append a prefix of X itself. -/
theorem rep_repeat_eq (X : List ℝ) (M : ℚ) (N : ℕ)
    (h1 : 1 ≤ ⌊M⌋) (hN : X.length = N) :
    IFFTTimeChunk.rep X M N =
      Except.ok ((List.replicate (⌊M⌋).toNat X).flatten ++
        X.take (pyRound ((M - ⌊M⌋) * N)).toNat) := by
  rw [IFFTTimeChunk.rep, if_neg (not_lt.mpr h1),
    take_flatten_replicate X (⌊M⌋).toNat _ (by omega) (by rw [hN]; exact pyRound_fract_le M N)]

/-- Claim C3: under the "repeat" policy with m = floor(M) (error if
m < 1), the chunk is tiled m times and the first round((M-m)*N) samples
of X are appended; on X = [1..10], M = 2.2 the output is
[1..10,1..10,1,2]. -/
theorem rep_repeat_policy (X : List ℝ) (M : ℚ) (N : ℕ)
    (h1 : 1 ≤ ⌊M⌋) (hN : X.length = N) :
    IFFTTimeChunk.rep X M N =
      Except.ok ((List.replicate (⌊M⌋).toNat X).flatten ++
        X.take (pyRound ((M - ⌊M⌋) * N)).toNat) ∧
    IFFTTimeChunk.rep X10 (11 / 5) 10 =
      Except.ok [1, 2, 3, 4, 5, 6, 7, 8, 9, 10, 1, 2, 3, 4, 5, 6, 7, 8, 9, 10, 1, 2] := by
  constructor
  · exact rep_repeat_eq X M N h1 hN
  · have hfl : ⌊(11 / 5 : ℚ)⌋ = 2 := by
      rw [Int.floor_eq_iff]
      constructor <;> norm_num
    have hX10 : X10.length = 10 := by simp [X10]
    rw [rep_repeat_eq X10 (11 / 5) 10 (by rw [hfl]; norm_num) hX10, hfl]
    have h2fl : ⌊(2 : ℚ)⌋ = 2 := by
      rw [Int.floor_eq_iff]
      constructor <;> norm_num
    have hpr : pyRound (2 : ℚ) = 2 := by
      rw [pyRound, h2fl, if_neg (by push_cast; norm_num), round_eq,
        show (2 : ℚ) + 1 / 2 = 5 / 2 by norm_num, Int.floor_eq_iff]
      constructor <;> norm_num
    rw [show ((11 / 5 : ℚ) - ((2 : ℤ) : ℚ)) * ((10 : ℕ) : ℚ) = 2 by push_cast; norm_num, hpr]
    rw [show Int.toNat 2 = 2 from rfl]
    rfl

/-- Witness for C3 at X = [1..10], M = 11/5, N = 10. -/
theorem rep_repeat_policy_witness :
    IFFTTimeChunk.rep X10 (11 / 5) 10 =
      Except.ok ((List.replicate ((⌊(11 / 5 : ℚ)⌋)).toNat X10).flatten ++
        X10.take (pyRound (((11 / 5 : ℚ) - ⌊(11 / 5 : ℚ)⌋) * 10)).toNat) := by
  have hfl : ⌊(11 / 5 : ℚ)⌋ = 2 := by
    rw [Int.floor_eq_iff]
    constructor <;> norm_num
  exact (rep_repeat_policy X10 (11 / 5) 10 (by rw [hfl]; norm_num) (by simp [X10])).1

/-- Helper: when the post-transition state is OFF, `step` only advances
the chain. -/
theorem RFIReactor.step_off (R : RFIReactor) (d : Draws)
    (h : (R.ge_step d.r).state = false) :
    R.step d = Except.ok (R.ge_step d.r) := by
  rw [RFIReactor.step, if_neg (by rw [h]; exact Bool.false_ne_true)]

/-- Helper: when the post-transition state is ON, the span is `I`, and
the power type is "normal", `step` writes the envelope into `J` on `I`. -/
theorem RFIReactor.step_on_normal (R : RFIReactor) (d : Draws) (I : List ℤ)
    (hOn : (R.ge_step d.r).state = true)
    (hI : occupiedBins (R.ge_step d.r) d.bwAbs = Except.ok I)
    (hpw : R.pwr_type = "normal") :
    R.step d = Except.ok { R.ge_step d.r with
      J := fun i => if i ∈ I then envVal (R.ge_step d.r) d.pwr I i
        else (R.ge_step d.r).J i } := by
  rw [RFIReactor.step, if_pos hOn, hI]
  simp only [Except.bind]
  rw [if_pos (show (R.ge_step d.r).pwr_type = "normal" from hpw)]

/-- Helper: `step` never changes the bin count. -/
theorem RFIReactor.step_nbins (R : RFIReactor) (d : Draws) (R' : RFIReactor)
    (h : R.step d = Except.ok R') : R'.nbins = R.nbins := by
  rw [RFIReactor.step] at h
  by_cases hOn : (R.ge_step d.r).state = true
  · rw [if_pos hOn] at h
    cases hI : occupiedBins (R.ge_step d.r) d.bwAbs with
    | error e => rw [hI] at h; simp [Except.bind] at h
    | ok I =>
      rw [hI] at h
      simp only [Except.bind] at h
      by_cases hpw : (R.ge_step d.r).pwr_type = "normal"
      · rw [if_pos hpw] at h
        have hR := Except.ok.inj h
        rw [← hR]
        rfl
      · rw [if_neg hpw] at h
        simp at h
  · rw [if_neg hOn] at h
    have hR := Except.ok.inj h
    rw [← hR]
    rfl

/-- Claim C10: after every `add(vector)` call the reactor's own
contribution vector is all zeros, and the returned vector is the input
plus (elementwise) the contribution vector held after the step, i.e.
before the clearing. -/
theorem add_clears_and_sums (R : RFIReactor) (x : List ℝ) (d : Draws)
    (R' : RFIReactor) (y : List ℝ)
    (h : R.add x d = Except.ok (R', y)) :
    (∀ i, R'.J i = 0) ∧
    ∃ R1, R.step d = Except.ok R1 ∧ R1.nbins = R.nbins ∧
      y = List.zipWith (· + ·) x (JVec R1) := by
  rw [RFIReactor.add] at h
  cases hs : R.step d with
  | error e => rw [hs] at h; simp [Except.map] at h
  | ok R1 =>
    rw [hs] at h
    simp only [Except.map] at h
    have hp := Except.ok.inj h
    injection hp with hR hy
    constructor
    · intro i
      rw [← hR]
    · exact ⟨R1, rfl, RFIReactor.step_nbins R d R1 hs, hy.symm⟩

/-- Witness for C10: a reactor that stays OFF, added into the vector [0]. -/
theorem add_clears_and_sums_witness :
    ∃ R' y, R10.add [(0 : ℝ)] d10 = Except.ok (R', y) ∧ ∀ i, R'.J i = 0 := by
  have hOff : (R10.ge_step d10.r).state = false := by
    show ge_transition R10.p00 R10.p11 R10.state d10.r = false
    norm_num [ge_transition, show R10.p00 = 1 from rfl, show R10.state = false from rfl,
      show d10.r = 1 / 2 from rfl]
  have hs : R10.step d10 = Except.ok (R10.ge_step d10.r) := RFIReactor.step_off R10 d10 hOff
  have ha : R10.add [(0 : ℝ)] d10 =
      Except.ok ({ R10.ge_step d10.r with J := fun _ => 0 },
        List.zipWith (· + ·) [(0 : ℝ)] (JVec (R10.ge_step d10.r))) := by
    rw [RFIReactor.add, hs]
    rfl
  exact ⟨_, _, ha, (add_clears_and_sums R10 [(0 : ℝ)] d10 _ _ ha).1⟩

/-- Claim C6 (code bug): with bandwidth {normal, mean 1, std 0}, power
{normal, mean 0, std 0}, shaping disabled and center bin 0 on 5 bins,
the reactor turns ON but its occupied span, clipped to lower bound 1 by
`calculate_bin_range`, is empty — the contribution vector stays all
zero instead of holding 1.0 at the center bin. -/
theorem center_bin_code_eval :
    ∃ R', R6.step d6 = Except.ok R' ∧ R'.state = true ∧ R'.J 0 = 0 ∧ ∀ i, R'.J i = 0 := by
  have hOn : (R6.ge_step d6.r).state = true := by
    show ge_transition R6.p00 R6.p11 R6.state d6.r = true
    norm_num [ge_transition, show R6.p00 = 0 from rfl, show R6.state = false from rfl,
      show d6.r = 1 / 2 from rfl]
  have hL : sampleL R6.bw_mean R6.bw_std d6.bwAbs = 1 := by
    rw [show R6.bw_mean = 1 from rfl, show R6.bw_std = 0 from rfl,
      show d6.bwAbs = 0 from rfl, sampleL, if_pos (by norm_num)]
  have hspan : occupiedBins (R6.ge_step d6.r) d6.bwAbs = Except.ok [] := by
    rw [occupiedBins, if_pos (show (R6.ge_step d6.r).bw_type = "normal" from rfl),
      show (R6.ge_step d6.r).bw_mean = R6.bw_mean from rfl,
      show (R6.ge_step d6.r).bw_std = R6.bw_std from rfl, hL,
      show (R6.ge_step d6.r).centerbin = R6.centerbin from rfl,
      show R6.centerbin = 0 from rfl]
    simp only [RFIReactor.calculate_bin_range,
      show (R6.ge_step d6.r).nbins = 5 from rfl, Except.ok.injEq]
    decide
  have hstep := RFIReactor.step_on_normal R6 d6 ([] : List ℤ) hOn hspan rfl
  refine ⟨_, hstep, hOn, ?_, ?_⟩
  · show (if (0 : ℤ) ∈ ([] : List ℤ) then envVal (R6.ge_step d6.r) d6.pwr ([] : List ℤ) 0
        else (R6.ge_step d6.r).J 0) = 0
    rw [if_neg (List.not_mem_nil 0)]
    rfl
  · intro i
    show (if i ∈ ([] : List ℤ) then envVal (R6.ge_step d6.r) d6.pwr ([] : List ℤ) i
        else (R6.ge_step d6.r).J i) = 0
    rw [if_neg (List.not_mem_nil i)]
    rfl

/-- Helper: the Gaussian shaping weight is at most 1. -/
theorem gaussW_le_one (c : ℤ) (σ : ℚ) (i : ℤ) : gaussW c σ i ≤ 1 := by
  rw [gaussW]
  calc Real.exp (-(1 / 2) * (((i - c : ℤ) : ℝ) / (σ : ℝ)) ^ 2) ≤ Real.exp 0 :=
        Real.exp_le_exp.mpr (by nlinarith [sq_nonneg (((i - c : ℤ) : ℝ) / (σ : ℝ))])
  _ = 1 := Real.exp_zero

/-- Helper: the Gaussian shaping weight is 1 at the center bin. -/
theorem gaussW_center (c : ℤ) (σ : ℚ) : gaussW c σ c = 1 := by
  simp [gaussW]

/-- Helper: the Gaussian shaping weight is positive. -/
theorem gaussW_pos (c : ℤ) (σ : ℚ) (i : ℤ) : 0 < gaussW c σ i := Real.exp_pos _

/-- Helper: the Gaussian shaping weight strictly decreases with the
distance to the center bin. -/
theorem gaussW_strict (c : ℤ) (σ : ℚ) (hσ : 0 < σ) {i j : ℤ}
    (hij : |i - c| < |j - c|) : gaussW c σ j < gaussW c σ i := by
  rw [gaussW, gaussW]
  apply Real.exp_lt_exp.mpr
  have hσR : (0 : ℝ) < ((σ : ℚ) : ℝ) := by exact_mod_cast hσ
  have habs : |((i - c : ℤ) : ℝ)| < |((j - c : ℤ) : ℝ)| := by
    rw [← Int.cast_abs, ← Int.cast_abs]
    exact_mod_cast hij
  have hsq : ((i - c : ℤ) : ℝ) ^ 2 < ((j - c : ℤ) : ℝ) ^ 2 := by
    rw [← sq_abs (((i - c : ℤ) : ℝ)), ← sq_abs (((j - c : ℤ) : ℝ))]
    exact pow_lt_pow_left habs (abs_nonneg _) (by norm_num)
  have hdiv : (((i - c : ℤ) : ℝ) / (σ : ℚ)) ^ 2 < (((j - c : ℤ) : ℝ) / (σ : ℚ)) ^ 2 := by
    rw [div_pow, div_pow]
    exact (div_lt_div_right (by positivity)).mpr hsq
  linarith

/-- Helper: the unshaped amplitude is positive. -/
theorem ampOf_pos (u s d : ℚ) : 0 < ampOf u s d :=
  Real.sqrt_pos.mpr (Real.rpow_pos_of_pos (by norm_num) _)

/-- Helper: every member of a list is at most its maximum. -/
theorem le_listMax (l : List ℝ) : ∀ x ∈ l, x ≤ listMax l := by
  induction l with
  | nil => intro x hx; cases hx
  | cons a t ih =>
    intro x hx
    cases t with
    | nil =>
      rcases List.mem_singleton.mp hx with rfl
      simp only [listMax]
      exact le_refl x
    | cons b t' =>
      rcases List.mem_cons.mp hx with rfl | hmem
      · simp only [listMax]
        exact le_max_left _ _
      · simp only [listMax]
        exact le_trans (ih x hmem) (le_max_right _ _)

/-- Helper: the maximum of a nonempty list is bounded by any bound of
its members. -/
theorem listMax_le (l : List ℝ) (b : ℝ) (hne : l ≠ []) (h : ∀ x ∈ l, x ≤ b) :
    listMax l ≤ b := by
  induction l with
  | nil => exact absurd rfl hne
  | cons a t ih =>
    cases t with
    | nil =>
      simp only [listMax]
      exact h a (List.mem_cons_self a _)
    | cons c t' =>
      simp only [listMax]
      exact max_le (h a (List.mem_cons_self a _))
        (ih (List.cons_ne_nil c t') (fun x hx => h x (List.mem_cons_of_mem _ hx)))

/-- Helper: a list containing 1 whose members are all at most 1 has
maximum 1. -/
theorem listMax_eq_one (l : List ℝ) (h1 : (1 : ℝ) ∈ l) (hle : ∀ x ∈ l, x ≤ 1) :
    listMax l = 1 :=
  le_antisymm (listMax_le l 1 (List.ne_nil_of_mem h1) hle) (le_listMax l 1 h1)

/-- Helper: with shaping enabled and the center bin inside the span, the
envelope at bin i is the amplitude times the Gaussian weight at i. -/
theorem envVal_eq (R : RFIReactor) (dpwr : ℚ) (I : List ℤ) (i : ℤ)
    (hsh : R.shaping_enabled = true) (hc : R.centerbin ∈ I) :
    envVal R dpwr I i =
      ampOf R.pwr_mean R.pwr_std dpwr * gaussW R.centerbin R.shaping_std i := by
  rw [envVal]
  simp only [if_pos hsh]
  have hmax : listMax (I.map (gaussW R.centerbin R.shaping_std)) = 1 := by
    apply listMax_eq_one
    · rw [← gaussW_center R.centerbin R.shaping_std]
      exact List.mem_map_of_mem _ hc
    · intro x hx
      obtain ⟨j, _, rfl⟩ := List.mem_map.mp hx
      exact gaussW_le_one _ _ _
  rw [hmax, div_one]

/-- Claim C8: for an ON reactor with shaping enabled, positive shaping
std and the center bin inside the occupied span, the written magnitude
profile peaks at the center bin with the unshaped amplitude and strictly
decreases with the distance to the center bin within the span. -/
theorem shaping_peak_monotone (R : RFIReactor) (d : Draws) (R' : RFIReactor) (I : List ℤ)
    (hstep : R.step d = Except.ok R')
    (hOn : (R.ge_step d.r).state = true)
    (hI : occupiedBins (R.ge_step d.r) d.bwAbs = Except.ok I)
    (hc : R.centerbin ∈ I)
    (hsh : R.shaping_enabled = true)
    (hσ : 0 < R.shaping_std)
    (hpw : R.pwr_type = "normal") :
    R'.J R.centerbin = ampOf R.pwr_mean R.pwr_std d.pwr ∧
    (∀ i ∈ I, R'.J i ≤ ampOf R.pwr_mean R.pwr_std d.pwr) ∧
    ∀ i ∈ I, ∀ j ∈ I, |i - R.centerbin| < |j - R.centerbin| → R'.J j < R'.J i := by
  rw [RFIReactor.step_on_normal R d I hOn hI hpw] at hstep
  have hR' := Except.ok.inj hstep
  have hJ : ∀ i, i ∈ I →
      R'.J i = ampOf R.pwr_mean R.pwr_std d.pwr * gaussW R.centerbin R.shaping_std i := by
    intro i hi
    rw [← hR']
    show (if i ∈ I then envVal (R.ge_step d.r) d.pwr I i else (R.ge_step d.r).J i) = _
    rw [if_pos hi,
      envVal_eq (R.ge_step d.r) d.pwr I i
        (show (R.ge_step d.r).shaping_enabled = true from hsh)
        (show (R.ge_step d.r).centerbin ∈ I from hc)]
    rfl
  refine ⟨?_, ?_, ?_⟩
  · rw [hJ R.centerbin hc, gaussW_center, mul_one]
  · intro i hi
    rw [hJ i hi]
    calc ampOf R.pwr_mean R.pwr_std d.pwr * gaussW R.centerbin R.shaping_std i
        ≤ ampOf R.pwr_mean R.pwr_std d.pwr * 1 :=
          mul_le_mul_of_nonneg_left (gaussW_le_one _ _ _) (le_of_lt (ampOf_pos _ _ _))
    _ = ampOf R.pwr_mean R.pwr_std d.pwr := mul_one _
  · intro i hi j hj hlt
    rw [hJ i hi, hJ j hj]
    exact mul_lt_mul_of_pos_left (gaussW_strict R.centerbin R.shaping_std hσ hlt)
      (ampOf_pos _ _ _)

/-- Witness for C8: concrete reactor R8 on span [1,2,3,4] with center
bin 2; the profile peaks at bin 2 and bin 4 is strictly below bin 2. -/
theorem shaping_peak_monotone_witness :
    ∃ R', R8.step d8 = Except.ok R' ∧
      R'.J R8.centerbin = ampOf R8.pwr_mean R8.pwr_std d8.pwr ∧
      R'.J 4 < R'.J 2 := by
  have hOn : (R8.ge_step d8.r).state = true := by
    show ge_transition R8.p00 R8.p11 R8.state d8.r = true
    norm_num [ge_transition, show R8.p00 = 0 from rfl, show R8.state = false from rfl,
      show d8.r = 1 / 2 from rfl]
  have hceil : ⌈(3 / 2 : ℚ)⌉ = 2 := by
    rw [Int.ceil_eq_iff] <;> norm_num
  have hL : sampleL R8.bw_mean R8.bw_std d8.bwAbs = 5 := by
    rw [show R8.bw_mean = 3 from rfl, show R8.bw_std = 0 from rfl,
      show d8.bwAbs = 0 from rfl, sampleL, if_neg (by norm_num),
      show (3 + 0 * 0 : ℚ) / 2 = 3 / 2 by norm_num, hceil]
    norm_num
  have hspan : occupiedBins (R8.ge_step d8.r) d8.bwAbs = Except.ok [1, 2, 3, 4] := by
    rw [occupiedBins, if_pos (show (R8.ge_step d8.r).bw_type = "normal" from rfl),
      show (R8.ge_step d8.r).bw_mean = R8.bw_mean from rfl,
      show (R8.ge_step d8.r).bw_std = R8.bw_std from rfl, hL,
      show (R8.ge_step d8.r).centerbin = R8.centerbin from rfl,
      show R8.centerbin = 2 from rfl]
    simp only [RFIReactor.calculate_bin_range,
      show (R8.ge_step d8.r).nbins = 5 from rfl, Except.ok.injEq]
    decide
  obtain ⟨R', hR'⟩ : ∃ R', R8.step d8 = Except.ok R' :=
    ⟨_, RFIReactor.step_on_normal R8 d8 [1, 2, 3, 4] hOn hspan rfl⟩
  have H := shaping_peak_monotone R8 d8 R' [1, 2, 3, 4] hR' hOn hspan
    (by decide) rfl (by rw [show R8.shaping_std = 1 from rfl]; norm_num) rfl
  refine ⟨R', hR', H.1, ?_⟩
  have h42 := H.2.2 2 (by decide) 4 (by decide)
    (by rw [show R8.centerbin = 2 from rfl]; decide)
  exact h42

/-- Claim C7: an even bin count makes spectrogram synthesis fail with
the configuration error before any frame is produced — the result is
the error value, carrying no rows. -/
theorem even_bins_config_error (oracle : ℕ → ℕ → Draws) (L : ℕ) (NF W dur : ℚ)
    (rs : List RFIReactor) (fuel : ℕ) (h : L % 2 = 0) :
    RFIGenerator.make_spectrogram oracle L NF W dur rs fuel =
      Except.error "Number of frequency bins must be odd" := by
  rw [RFIGenerator.make_spectrogram, if_pos h]

/-- Witness for C7 at bin count 4. -/
theorem even_bins_config_error_witness :
    (4 : ℕ) % 2 = 0 ∧
    RFIGenerator.make_spectrogram oraW 4 0 1 1 [] 3 =
      Except.error "Number of frequency bins must be odd" :=
  ⟨rfl, even_bins_config_error oraW 4 0 1 1 [] 3 rfl⟩

/-- Claim C5: on a nonempty magnitude vector of length len, the
pre-transform reordering puts the element at index ceil(len/2)-1 first,
then the higher-index elements in order, then the elements below that
midpoint in order; the output is a permutation of the input of the same
length. -/
theorem ifft_reorder_spec (Y : List ℝ) (h : 0 < Y.length) :
    ∃ Z, IFFTTimeChunk.ifft_reorder Y = some Z ∧
      Z.length = Y.length ∧ Z.Perm Y ∧
      ∃ hlt : (⌈(Y.length : ℚ) / 2⌉).toNat - 1 < Y.length,
        Z = Y.get ⟨(⌈(Y.length : ℚ) / 2⌉).toNat - 1, hlt⟩ ::
          (Y.drop (⌈(Y.length : ℚ) / 2⌉).toNat ++
            Y.take ((⌈(Y.length : ℚ) / 2⌉).toNat - 1)) := by
  have hne : Y.length ≠ 0 := Nat.pos_iff_ne_zero.mp h
  rw [IFFTTimeChunk.ifft_reorder, if_neg hne]
  set Im := (⌈(Y.length : ℚ) / 2⌉).toNat with hIm
  have hIm1 : 1 ≤ Im := by
    have hpos : (0 : ℤ) < ⌈(Y.length : ℚ) / 2⌉ :=
      Int.ceil_pos.mpr (div_pos (by exact_mod_cast h) (by norm_num))
    omega
  have hImn : Im ≤ Y.length := by
    have hle : ⌈(Y.length : ℚ) / 2⌉ ≤ (Y.length : ℤ) := by
      apply Int.ceil_le.mpr
      push_cast
      linarith [show (0 : ℚ) ≤ (Y.length : ℚ) by positivity]
    omega
  have hlt : Im - 1 < Y.length := by omega
  have hdrop : Y.drop (Im - 1) = Y.get ⟨Im - 1, hlt⟩ :: Y.drop Im := by
    rw [List.drop_eq_get_cons hlt, show Im - 1 + 1 = Im by omega]
  have hZ : (Y.drop (Im - 1)).take 1 ++ Y.drop Im ++ Y.take (Im - 1) =
      Y.get ⟨Im - 1, hlt⟩ :: (Y.drop Im ++ Y.take (Im - 1)) := by
    rw [hdrop]
    rfl
  have hY : Y = Y.take (Im - 1) ++ (Y.get ⟨Im - 1, hlt⟩ :: Y.drop Im) := by
    conv_lhs => rw [← List.take_append_drop (Im - 1) Y]
    rw [hdrop]
  have hperm : (Y.get ⟨Im - 1, hlt⟩ :: (Y.drop Im ++ Y.take (Im - 1))).Perm Y := by
    have p1 : ((Y.get ⟨Im - 1, hlt⟩ :: Y.drop Im) ++ Y.take (Im - 1)).Perm
        (Y.take (Im - 1) ++ (Y.get ⟨Im - 1, hlt⟩ :: Y.drop Im)) :=
      List.perm_append_comm
    rw [← hY] at p1
    rw [List.cons_append] at p1
    exact p1
  refine ⟨_, rfl, ?_, ?_, hlt, hZ⟩
  · rw [hZ]
    exact hperm.length_eq
  · rw [hZ]
    exact hperm

/-- Witness for C5 at Y = [1,2,3]: midpoint index 1, output [2,3,1]. -/
theorem ifft_reorder_spec_witness :
    0 < ([(1 : ℝ), 2, 3] : List ℝ).length ∧
    ∃ Z, IFFTTimeChunk.ifft_reorder [(1 : ℝ), 2, 3] = some Z ∧
      Z.length = ([(1 : ℝ), 2, 3] : List ℝ).length ∧
      Z.Perm [(1 : ℝ), 2, 3] ∧
      ∃ hlt : (⌈(([(1 : ℝ), 2, 3] : List ℝ).length : ℚ) / 2⌉).toNat - 1 <
          ([(1 : ℝ), 2, 3] : List ℝ).length,
        Z = ([(1 : ℝ), 2, 3] : List ℝ).get
            ⟨(⌈(([(1 : ℝ), 2, 3] : List ℝ).length : ℚ) / 2⌉).toNat - 1, hlt⟩ ::
          (([(1 : ℝ), 2, 3] : List ℝ).drop
              (⌈(([(1 : ℝ), 2, 3] : List ℝ).length : ℚ) / 2⌉).toNat ++
            ([(1 : ℝ), 2, 3] : List ℝ).take
              ((⌈(([(1 : ℝ), 2, 3] : List ℝ).length : ℚ) / 2⌉).toNat - 1)) :=
  ⟨by norm_num, ifft_reorder_spec [(1 : ℝ), 2, 3] (by norm_num)⟩

/-- Helper: one `add` call preserves the bin count and yields a vector
of length `min` of the input length and the bin count. -/
theorem RFIReactor.add_len (R : RFIReactor) (x : List ℝ) (d : Draws)
    (R' : RFIReactor) (y : List ℝ) (h : R.add x d = Except.ok (R', y)) :
    y.length = min x.length R.nbins ∧ R'.nbins = R.nbins := by
  rw [RFIReactor.add] at h
  cases hs : R.step d with
  | error e => rw [hs] at h; simp [Except.map] at h
  | ok R1 =>
    rw [hs] at h
    simp only [Except.map] at h
    have hp := Except.ok.inj h
    injection hp with hR hy
    have hn : R1.nbins = R.nbins := RFIReactor.step_nbins R d R1 hs
    constructor
    · rw [← hy, List.length_zipWith, JVec, List.length_map, List.length_range, hn]
    · rw [← hR]
      show R1.nbins = R.nbins
      exact hn

/-- Helper: one frame fold preserves the vector length and the bin
counts of all reactors. -/
theorem addAll_len (L : ℕ) (rs : List RFIReactor) : ∀ (ds : ℕ → Draws) (k : ℕ)
    (x : List ℝ) (rs' : List RFIReactor) (y : List ℝ),
    addAll ds rs k x = Except.ok (rs', y) →
    (∀ R ∈ rs, R.nbins = L) → x.length = L →
    y.length = L ∧ ∀ R' ∈ rs', R'.nbins = L := by
  induction rs with
  | nil =>
    intro ds k x rs' y h _ hx
    simp only [addAll] at h
    have hp := Except.ok.inj h
    injection hp with h1 h2
    subst h1
    subst h2
    exact ⟨hx, by intro R' hR'; cases hR'⟩
  | cons R rs ih =>
    intro ds k x rs' y h hbins hx
    simp only [addAll] at h
    cases ha : R.add x (ds k) with
    | error e => rw [ha] at h; simp [Except.bind] at h
    | ok p =>
      rw [ha] at h
      simp only [Except.bind] at h
      cases hrec : addAll ds rs (k + 1) p.2 with
      | error e => rw [hrec] at h; simp at h
      | ok q =>
        rw [hrec] at h
        simp only [Except.ok.injEq] at h
        have hq1 : p.1 :: q.1 = rs' := congrArg Prod.fst h
        have hq2 : q.2 = y := congrArg Prod.snd h
        have hR : R.nbins = L := hbins R (List.mem_cons_self R rs)
        have hal := RFIReactor.add_len R x (ds k) p.1 p.2 ha
        have hx1 : p.2.length = L := by rw [hal.1, hx, hR, min_self]
        have hih := ih ds (k + 1) p.2 q.1 q.2 hrec
          (fun R' hR' => hbins R' (List.mem_cons_of_mem _ hR')) hx1
        refine ⟨by rw [← hq2]; exact hih.1, ?_⟩
        intro R'' hR''
        rw [← hq1] at hR''
        rcases List.mem_cons.mp hR'' with rfl | hmem
        · rw [hal.2]
          exact hR
        · exact hih.2 R'' hmem

/-- Helper: the per-frame state evolution advances one frame at a time. -/
theorem statesFrom_succ (oracle : ℕ → ℕ → Draws) (L : ℕ) (nf : ℝ) (k : ℕ)
    (rs : List RFIReactor) (p : List RFIReactor × List ℝ) (i : ℕ)
    (ha : addAll (oracle k) rs 0 (List.replicate L nf) = Except.ok p) :
    statesFrom oracle L nf k rs (i + 1) = statesFrom oracle L nf (k + 1) p.1 i := by
  simp only [statesFrom, ha, Except.bind]

/-- Helper: frame 0 from states `rs` is the fold of all adds over the
noise-floor broadcast, converted to dB. -/
theorem frameFrom_zero (oracle : ℕ → ℕ → Draws) (L : ℕ) (nf : ℝ) (k : ℕ)
    (rs : List RFIReactor) :
    frameFrom oracle L nf k rs 0 =
      Except.map (fun p => p.2.map toDB) (addAll (oracle k) rs 0 (List.replicate L nf)) := by
  rw [frameFrom]
  simp only [statesFrom, Except.bind, Nat.add_zero]

/-- Helper: the frame at index i+1 from frame k equals the frame at
index i from frame k+1 after one fold. -/
theorem frameFrom_succ (oracle : ℕ → ℕ → Draws) (L : ℕ) (nf : ℝ) (k : ℕ)
    (rs : List RFIReactor) (p : List RFIReactor × List ℝ) (i : ℕ)
    (ha : addAll (oracle k) rs 0 (List.replicate L nf) = Except.ok p) :
    frameFrom oracle L nf k rs (i + 1) = frameFrom oracle L nf (k + 1) p.1 i := by
  rw [frameFrom, frameFrom, statesFrom_succ oracle L nf k rs p i ha,
    show k + (i + 1) = (k + 1) + i by omega]

/-- Helper: full characterization of the `while t < dur` loop — with
enough fuel and consistent bin counts, an ok run yields exactly
ceil((dur - t)/W) frames, each of length L, the i-th being the dB fold
of all adds at the i-th evolved reactor states. -/
theorem make_frames_ok (oracle : ℕ → ℕ → Draws) (L : ℕ) (nf : ℝ) (W dur : ℚ)
    (hW : 0 < W) : ∀ (fuel : ℕ) (rs : List RFIReactor) (t : ℚ) (k : ℕ)
    (frames : List (List ℝ)),
    make_frames oracle L nf W dur rs t k fuel = Except.ok frames →
    (⌈(dur - t) / W⌉).toNat ≤ fuel →
    (∀ R ∈ rs, R.nbins = L) →
    frames.length = (⌈(dur - t) / W⌉).toNat ∧
    (∀ fr ∈ frames, fr.length = L) ∧
    (∀ i (hi : i < frames.length),
      frameFrom oracle L nf k rs i = Except.ok (frames.get ⟨i, hi⟩)) := by
  intro fuel
  induction fuel with
  | zero =>
    intro rs t k frames h hfuel _
    simp only [make_frames] at h
    have hfr := Except.ok.inj h
    subst hfr
    refine ⟨by simp only [List.length_nil]; omega, ?_, ?_⟩
    · intro fr hfr'
      cases hfr'
    · intro i hi
      simp at hi
  | succ fuel ih =>
    intro rs t k frames h hfuel hbins
    simp only [make_frames] at h
    by_cases ht : t < dur
    · rw [if_pos ht] at h
      cases ha : addAll (oracle k) rs 0 (List.replicate L nf) with
      | error e => rw [ha] at h; simp [Except.bind] at h
      | ok p =>
        rw [ha] at h
        simp only [Except.bind] at h
        cases hrec : make_frames oracle L nf W dur p.1 (t + W) (k + 1) fuel with
        | error e => rw [hrec] at h; simp at h
        | ok tail =>
          rw [hrec] at h
          simp only [Except.ok.injEq] at h
          subst h
          have hW0 : W ≠ 0 := ne_of_gt hW
          have harg : (dur - (t + W)) / W = (dur - t) / W - 1 := by
            field_simp
            ring
          have hceil : ⌈(dur - (t + W)) / W⌉ = ⌈(dur - t) / W⌉ - 1 := by
            rw [harg, show (dur - t) / W - 1 = (dur - t) / W - ((1 : ℤ) : ℚ) by norm_num,
              Int.ceil_sub_int]
          have hpos : 0 < ⌈(dur - t) / W⌉ := Int.ceil_pos.mpr (div_pos (by linarith) hW)
          have hfuel' : (⌈(dur - (t + W)) / W⌉).toNat ≤ fuel := by omega
          obtain ⟨hJlen, hbins1⟩ := addAll_len L rs (oracle k) 0 (List.replicate L nf)
            p.1 p.2 ha hbins (by rw [List.length_replicate])
          obtain ⟨ihlen, ihfr, ihframes⟩ := ih p.1 (t + W) (k + 1) tail hrec hfuel' hbins1
          refine ⟨?_, ?_, ?_⟩
          · simp only [List.length_cons, ihlen]
            omega
          · intro fr hfr
            rcases List.mem_cons.mp hfr with rfl | hmem
            · rw [List.length_map]
              exact hJlen
            · exact ihfr fr hmem
          · intro i hi
            cases i with
            | zero =>
              rw [frameFrom_zero, ha]
              rfl
            | succ i' =>
              rw [frameFrom_succ oracle L nf k rs p i' ha]
              have hi' : i' < tail.length := by
                simp only [List.length_cons] at hi
                omega
              exact (ihframes i' hi').trans (by rfl)
    · rw [if_neg ht] at h
      have hfr := Except.ok.inj h
      subst hfr
      have hc0 : ⌈(dur - t) / W⌉ ≤ 0 := by
        apply Int.ceil_le.mpr
        push_cast
        have hx : (dur - t) / W ≤ 0 :=
          div_nonpos_of_nonpos_of_nonneg (by linarith) hW.le
        linarith
      refine ⟨by simp only [List.length_nil]; omega, ?_, ?_⟩
      · intro fr hfr'
        cases hfr'
      · intro i hi
        simp at hi

/-- Claim C4: for positive duration and window size (and enough loop
fuel, all reactors sized to the bin count), an ok spectrogram run emits
exactly ceil(dur/W) frames, each of length L, the i-th frame being the
dB conversion of the fold of every reactor's add over the noise-floor
broadcast at the i-th evolved reactor states, in time order. -/
theorem make_spectrogram_frames (oracle : ℕ → ℕ → Draws) (L : ℕ) (NF W dur : ℚ)
    (rs : List RFIReactor) (fuel : ℕ) (frames : List (List ℝ))
    (hdur : 0 < dur) (hW : 0 < W)
    (hfuel : (⌈dur / W⌉).toNat ≤ fuel)
    (hbins : ∀ R ∈ rs, R.nbins = L)
    (h : RFIGenerator.make_spectrogram oracle L NF W dur rs fuel = Except.ok frames) :
    frames.length = (⌈dur / W⌉).toNat ∧
    (∀ fr ∈ frames, fr.length = L) ∧
    ∀ i (hi : i < frames.length),
      frameFrom oracle L (nfv NF) 0 rs i = Except.ok (frames.get ⟨i, hi⟩) := by
  rw [RFIGenerator.make_spectrogram] at h
  by_cases hL : L % 2 = 0
  · rw [if_pos hL] at h
    simp at h
  · rw [if_neg hL] at h
    have hmain := make_frames_ok oracle L (nfv NF) W dur hW fuel rs 0 0 frames h
      (by rw [sub_zero]; exact hfuel) hbins
    rw [sub_zero] at hmain
    exact hmain

/-- Witness for C4: one reactor-free frame, W = dur = 1, one unit of fuel. -/
theorem make_spectrogram_frames_witness :
    ∃ frames, RFIGenerator.make_spectrogram oraW 1 0 1 1 [] 1 = Except.ok frames ∧
      frames.length = (⌈(1 : ℚ) / 1⌉).toNat := by
  have hmake : RFIGenerator.make_spectrogram oraW 1 0 1 1 [] 1 =
      Except.ok [[toDB (nfv 0)]] := by
    rw [RFIGenerator.make_spectrogram, if_neg (by norm_num)]
    simp only [make_frames, addAll, Except.bind]
    rw [if_pos (show (0 : ℚ) < 1 by norm_num)]
    rfl
  refine ⟨_, hmake, ?_⟩
  exact (make_spectrogram_frames oraW 1 0 1 1 [] 1 [[toDB (nfv 0)]] (by norm_num)
    (by norm_num)
    (by rw [show ((1 : ℚ) / 1) = 1 by norm_num, Int.ceil_one]; exact le_refl 1)
    (by intro R hR; cases hR) hmake).1
